import Mathlib

/-!
# Verification of the contact-management-system core

Shallow embedding of src/advanced-contact-manager.c: the contact record,
the sanitizer (trim_whitespace / replace_commas), the regex grammars
(NAME_REGEX, PHONE_REGEX, EMAIL_REGEX) as executable character-class
predicates, the store operations (add, update, delete), the merge sort,
the CSV save/load codec (including the 100-byte fgets line buffer of
load_contacts) and the vCard import scanner.

Strings are modelled at character granularity: a C byte string becomes a
Lean String (a list of characters), and the byte-wise operations of the
source (tolower, isspace, strcmp, strcasecmp, sscanf scan sets) become
the corresponding character-wise operations.  For the ASCII data
accepted by the grammars the two views coincide.  Most functions are
defined on List Char and wrapped into String at the record boundary.
-/

namespace ContactMgr

/-- One entry of the address book: the C struct Contact
(char name[50]; char phone[17]; char email[254]). -/
structure Contact where
  name : String
  phone : String
  email : String
deriving DecidableEq

/-- Placeholder record used for indexed access (indices are always in
bounds where it is used). -/
def emptyContact : Contact := ⟨"", "", ""⟩

/-! ## Character classes (ctype.h and the regex character sets) -/

/-- C isspace in the default locale: space, tab, newline, vertical tab,
form feed, carriage return. -/
def isSpaceC (c : Char) : Bool :=
  c = ' ' || c = '\t' || c = '\n' || c = '\x0b' || c = '\x0c' || c = '\r'

/-- The regex class [A-Za-z]. -/
def isAlphaA (c : Char) : Bool :=
  ('A' ≤ c && c ≤ 'Z') || ('a' ≤ c && c ≤ 'z')

/-- The regex class [0-9]. -/
def isDigitA (c : Char) : Bool :=
  '0' ≤ c && c ≤ '9'

/-! ## Sanitizer (trim_whitespace, replace_commas, sanitize_contact) -/

/-- trim_whitespace on the character list: drop leading whitespace, then
drop trailing whitespace. -/
def trimL (cs : List Char) : List Char :=
  ((cs.dropWhile isSpaceC).reverse.dropWhile isSpaceC).reverse

/-- trim_whitespace. -/
def trim_whitespace (s : String) : String := ⟨trimL s.data⟩

/-- replace_commas on the character list: every literal comma becomes a
single space. -/
def replaceL (cs : List Char) : List Char :=
  cs.map (fun c => if c = ',' then ' ' else c)

/-- replace_commas. -/
def replace_commas (s : String) : String := ⟨replaceL s.data⟩

/-- Per-field sanitization, in the order the source applies it: trim,
then replace commas. -/
def sanitizeField (s : String) : String :=
  replace_commas (trim_whitespace s)

/-- sanitize_contact: trim then de-comma each of the three fields.
The source trims all three fields first and then replaces commas in all
three; the two passes touch disjoint fields, so the per-field
composition is the same function. -/
def sanitize_contact (c : Contact) : Contact :=
  ⟨sanitizeField c.name, sanitizeField c.phone, sanitizeField c.email⟩

/-! ## Field grammars

NAME_REGEX  = ^[A-Za-z][A-Za-z '-]{0,48}[A-Za-z]$
PHONE_REGEX = ^((\+91[6-9][0-9]{9})|([6-9][0-9]{9})|(\+[1-9][0-9]{6,14}))$
EMAIL_REGEX = ^[a-z0-9._%+-]+@[a-zA-Z0-9.-]+\.[a-zA-Z]{2,}$

Each anchored POSIX pattern is a regular language; the executable
predicates below decide membership structurally. -/

/-- The regex class [A-Za-z '-] of interior name characters
(letter, space, apostrophe, hyphen). -/
def nameMidChar (c : Char) : Bool :=
  isAlphaA c || c = ' ' || c = Char.ofNat 39 || c = '-'

/-- NAME_REGEX on the character list: a letter, 0 to 48 characters from
the class [A-Za-z '-], a letter. -/
def validNameL (cs : List Char) : Bool :=
  match cs with
  | [] => false
  | c :: rest =>
    match rest.getLast? with
    | none => false
    | some d => isAlphaA c && isAlphaA d && rest.dropLast.all nameMidChar && rest.length ≤ 49

/-- NAME_REGEX. -/
def validName (s : String) : Bool := validNameL s.data

/-- PHONE_REGEX, first alternative: +91, one digit 6-9, nine digits. -/
def phoneAlt1 (cs : List Char) : Bool :=
  match cs with
  | '+' :: '9' :: '1' :: d :: ds => ('6' ≤ d && d ≤ '9') && ds.length == 9 && ds.all isDigitA
  | _ => false

/-- PHONE_REGEX, second alternative: one digit 6-9, nine digits. -/
def phoneAlt2 (cs : List Char) : Bool :=
  match cs with
  | d :: ds => ('6' ≤ d && d ≤ '9') && ds.length == 9 && ds.all isDigitA
  | _ => false

/-- PHONE_REGEX, third alternative: +, one digit 1-9, 6 to 14 digits. -/
def phoneAlt3 (cs : List Char) : Bool :=
  match cs with
  | '+' :: d :: ds =>
    ('1' ≤ d && d ≤ '9') && (6 ≤ ds.length && ds.length ≤ 14) && ds.all isDigitA
  | _ => false

/-- PHONE_REGEX: the disjunction of the three alternatives. -/
def validPhone (s : String) : Bool :=
  phoneAlt1 s.data || phoneAlt2 s.data || phoneAlt3 s.data

/-- The regex class [a-z0-9._%+-] of local-part characters. -/
def emailLocalChar (c : Char) : Bool :=
  ('a' ≤ c && c ≤ 'z') || isDigitA c || c = '.' || c = '_' || c = '%' || c = '+' || c = '-'

/-- The regex class [a-zA-Z0-9.-] of domain characters. -/
def emailDomChar (c : Char) : Bool :=
  isAlphaA c || isDigitA c || c = '.' || c = '-'

/-- EMAIL_REGEX on the character list: local part, @, domain, dot, TLD
of 2+ letters.  The local-part and domain classes exclude @, so a
matching string has exactly one @ and splitting at the first @ is
exhaustive; the TLD class excludes the dot, so the dot before the TLD is
the last dot after the @ and splitting there is exhaustive. -/
def validEmailL (cs : List Char) : Bool :=
  match cs.dropWhile (fun c => c != '@') with
  | '@' :: dom =>
    (!(cs.takeWhile (fun c => c != '@')).isEmpty) &&
      (cs.takeWhile (fun c => c != '@')).all emailLocalChar &&
      (match dom.reverse.dropWhile (fun c => c != '.') with
       | '.' :: domR =>
         (!domR.isEmpty) && domR.all emailDomChar &&
           (2 ≤ (dom.reverse.takeWhile (fun c => c != '.')).length) &&
           (dom.reverse.takeWhile (fun c => c != '.')).all isAlphaA
       | _ => false)
  | _ => false

/-- EMAIL_REGEX. -/
def validEmail (s : String) : Bool := validEmailL s.data

/-- validate_with_regex applied to all three fields of one record, as
load_contacts, import_from_vcf and add_contacts do. -/
def validContact (c : Contact) : Bool :=
  validName c.name && validPhone c.phone && validEmail c.email

/-- Every character a valid phone number may contain: plus or digit. -/
def phoneChar (c : Char) : Bool := c = '+' || isDigitA c

/-- Every character a valid email may contain. -/
def emailChar (c : Char) : Bool := emailLocalChar c || c = '@' || emailDomChar c

/-! ## Small list and character-class lemmas -/

lemma map_eq_self_of {α : Type} {l : List α} {f : α → α} (h : ∀ c ∈ l, f c = c) :
    l.map f = l := by
  induction l with
  | nil => rfl
  | cons c cs ih =>
    simp only [List.map_cons, h c (by simp), ih (fun x hx => h x (by simp [hx]))]

lemma dropWhile_eq_self_of_head {p : Char → Bool} {l : List Char}
    (h : ∀ c, l.head? = some c → p c = false) : l.dropWhile p = l := by
  cases l with
  | nil => rfl
  | cons c cs => rw [List.dropWhile_cons, h c rfl]; simp

lemma space_not_alpha {c : Char} (h : isSpaceC c = true) : isAlphaA c = false := by
  unfold isSpaceC at h
  simp only [Bool.or_eq_true, decide_eq_true_eq] at h
  rcases h with ((((h | h) | h) | h) | h) | h <;> subst h <;> decide

lemma space_not_phoneChar {c : Char} (h : isSpaceC c = true) : phoneChar c = false := by
  unfold isSpaceC at h
  simp only [Bool.or_eq_true, decide_eq_true_eq] at h
  rcases h with ((((h | h) | h) | h) | h) | h <;> subst h <;> decide

lemma space_not_emailChar {c : Char} (h : isSpaceC c = true) : emailChar c = false := by
  unfold isSpaceC at h
  simp only [Bool.or_eq_true, decide_eq_true_eq] at h
  rcases h with ((((h | h) | h) | h) | h) | h <;> subst h <;> decide

lemma alpha_not_space {c : Char} (h : isAlphaA c = true) : isSpaceC c = false := by
  cases hs : isSpaceC c with
  | false => rfl
  | true => rw [space_not_alpha hs] at h; exact absurd h (by simp)

lemma phoneChar_not_space {c : Char} (h : phoneChar c = true) : isSpaceC c = false := by
  cases hs : isSpaceC c with
  | false => rfl
  | true => rw [space_not_phoneChar hs] at h; exact absurd h (by simp)

lemma emailChar_not_space {c : Char} (h : emailChar c = true) : isSpaceC c = false := by
  cases hs : isSpaceC c with
  | false => rfl
  | true => rw [space_not_emailChar hs] at h; exact absurd h (by simp)

lemma emailLocalChar_emailChar {c : Char} (h : emailLocalChar c = true) : emailChar c = true := by
  unfold emailChar; rw [h]; rfl

lemma nameMidChar_no_comma {c : Char} (h : nameMidChar c = true) : c ≠ ',' := by
  rintro rfl; exact absurd h (by decide)

lemma nameMidChar_no_nl {c : Char} (h : nameMidChar c = true) : c ≠ '\n' := by
  rintro rfl; exact absurd h (by decide)

lemma phoneChar_no_comma {c : Char} (h : phoneChar c = true) : c ≠ ',' := by
  rintro rfl; exact absurd h (by decide)

lemma phoneChar_no_nl {c : Char} (h : phoneChar c = true) : c ≠ '\n' := by
  rintro rfl; exact absurd h (by decide)

lemma emailChar_no_comma {c : Char} (h : emailChar c = true) : c ≠ ',' := by
  rintro rfl; exact absurd h (by decide)

lemma emailChar_no_nl {c : Char} (h : emailChar c = true) : c ≠ '\n' := by
  rintro rfl; exact absurd h (by decide)

lemma isAlphaA_nameMidChar {c : Char} (h : isAlphaA c = true) : nameMidChar c = true := by
  unfold nameMidChar; rw [h]; rfl

lemma isAlphaA_emailDomChar {c : Char} (h : isAlphaA c = true) : emailDomChar c = true := by
  unfold emailDomChar; rw [h]; rfl

/-! ## Anatomy of the grammars -/

/-- Structure of a string accepted by NAME_REGEX. -/
lemma validName_anatomy {s : String} (h : validName s = true) :
    s.data ≠ [] ∧ (∀ c ∈ s.data, nameMidChar c = true) ∧
    (∀ c, s.data.head? = some c → isAlphaA c = true) ∧
    (∀ c, s.data.getLast? = some c → isAlphaA c = true) ∧ s.data.length ≤ 50 := by
  unfold validName validNameL at h
  split at h
  · exact absurd h (by simp)
  · rename_i c rest heq
    split at h
    · exact absurd h (by simp)
    · rename_i d hl
      simp only [Bool.and_eq_true, decide_eq_true_eq] at h
      obtain ⟨⟨⟨hc, hdal⟩, hmid⟩, hlen⟩ := h
      have hrest : rest ≠ [] := by intro hnil; rw [hnil] at hl; exact absurd hl (by simp)
      have hdl : rest.dropLast ++ [d] = rest := by
        rw [List.getLast?_eq_getLast rest hrest] at hl
        rw [← Option.some_inj.mp hl]
        exact List.dropLast_concat_getLast hrest
      rw [heq]
      refine ⟨by simp, ?_, ?_, ?_, by simp [hlen]⟩
      · intro x hx
        rcases List.mem_cons.mp hx with rfl | hx'
        · exact isAlphaA_nameMidChar hc
        · rw [← hdl] at hx'
          rcases List.mem_append.mp hx' with hx'' | hx''
          · exact List.all_eq_true.mp hmid x hx''
          · rw [List.mem_singleton.mp hx'']; exact isAlphaA_nameMidChar hdal
      · intro x hx
        rw [List.head?_cons] at hx
        rw [← Option.some_inj.mp hx]; exact hc
      · intro x hx
        have hgl : (c :: rest).getLast? = rest.getLast? := by
          cases rest with
          | nil => exact absurd rfl hrest
          | cons e es => rfl
        rw [hgl, hl] at hx
        rw [← Option.some_inj.mp hx]; exact hdal

lemma digit_between {d lo : Char} (hlo : '0' ≤ lo) (h1 : lo ≤ d) (h2 : d ≤ '9') :
    isDigitA d = true := by
  unfold isDigitA
  simp only [Bool.and_eq_true, decide_eq_true_eq]
  exact ⟨le_trans hlo h1, h2⟩

lemma isDigitA_phoneChar {d : Char} (hd : isDigitA d = true) : phoneChar d = true := by
  unfold phoneChar; rw [hd]; simp

/-- Structure of a string accepted by PHONE_REGEX. -/
lemma validPhone_anatomy {s : String} (h : validPhone s = true) :
    s.data ≠ [] ∧ (∀ c ∈ s.data, phoneChar c = true) ∧ s.data.length ≤ 16 := by
  unfold validPhone at h
  simp only [Bool.or_eq_true] at h
  rcases h with (h | h) | h
  · unfold phoneAlt1 at h
    split at h
    · rename_i d ds heq
      simp only [Bool.and_eq_true, decide_eq_true_eq, beq_iff_eq] at h
      obtain ⟨⟨⟨h6, h9⟩, hlen⟩, hds⟩ := h
      rw [heq]
      refine ⟨by simp, ?_, by simp [hlen]⟩
      intro x hx
      simp only [List.mem_cons] at hx
      rcases hx with rfl | rfl | rfl | rfl | hx
      · decide
      · decide
      · decide
      · exact isDigitA_phoneChar (digit_between (by decide) h6 h9)
      · exact isDigitA_phoneChar (List.all_eq_true.mp hds x hx)
    · exact absurd h (by simp)
  · unfold phoneAlt2 at h
    split at h
    · rename_i d ds heq
      simp only [Bool.and_eq_true, decide_eq_true_eq, beq_iff_eq] at h
      obtain ⟨⟨⟨h6, h9⟩, hlen⟩, hds⟩ := h
      rw [heq]
      refine ⟨by simp, ?_, by simp [hlen]⟩
      intro x hx
      rcases List.mem_cons.mp hx with rfl | hx
      · exact isDigitA_phoneChar (digit_between (by decide) h6 h9)
      · exact isDigitA_phoneChar (List.all_eq_true.mp hds x hx)
    · exact absurd h (by simp)
  · unfold phoneAlt3 at h
    split at h
    · rename_i d ds heq
      simp only [Bool.and_eq_true, decide_eq_true_eq] at h
      obtain ⟨⟨⟨h1, h9⟩, hlen1, hlen2⟩, hds⟩ := h
      rw [heq]
      refine ⟨by simp, ?_, by simp; omega⟩
      intro x hx
      simp only [List.mem_cons] at hx
      rcases hx with rfl | rfl | hx
      · decide
      · exact isDigitA_phoneChar (digit_between (by decide) h1 h9)
      · exact isDigitA_phoneChar (List.all_eq_true.mp hds x hx)
    · exact absurd h (by simp)

/-- Structure of a string accepted by EMAIL_REGEX. -/
lemma validEmail_anatomy {s : String} (h : validEmail s = true) :
    s.data ≠ [] ∧ (∀ c ∈ s.data, emailChar c = true) ∧
    (∀ c, s.data.head? = some c → emailLocalChar c = true) ∧
    (∀ c, s.data.getLast? = some c → isAlphaA c = true) := by
  unfold validEmail validEmailL at h
  split at h
  case h_2 => exact absurd h (by simp)
  rename_i dom hdp
  split at h
  case h_2 => simp at h
  rename_i domR hdp2
  simp only [Bool.and_eq_true, Bool.not_eq_true', List.isEmpty_eq_false,
    decide_eq_true_eq] at h
  obtain ⟨⟨hlocne, hloc⟩, ⟨⟨hdomRne, hdomR⟩, htldlen⟩, htld⟩ := h
  set loc := s.data.takeWhile (fun c => c != '@') with hloc_def
  set tldR := dom.reverse.takeWhile (fun c => c != '.') with htld_def
  have hdata : s.data = loc ++ '@' :: dom := by
    rw [hloc_def, ← hdp, List.takeWhile_append_dropWhile]
  have hdomrev : dom.reverse = tldR ++ '.' :: domR := by
    rw [htld_def, ← hdp2, List.takeWhile_append_dropWhile]
  have hdom : dom = domR.reverse ++ '.' :: tldR.reverse := by
    have h' := congrArg List.reverse hdomrev
    rw [List.reverse_reverse, List.reverse_append, List.reverse_cons] at h'
    rw [h']; simp
  have htldR_ne : tldR ≠ [] := by
    intro hnil; rw [hnil] at htldlen; exact absurd htldlen (by simp)
  have hmem : ∀ c ∈ s.data, emailChar c = true := by
    intro x hx
    rw [hdata] at hx
    rcases List.mem_append.mp hx with hx' | hx'
    · exact emailLocalChar_emailChar (List.all_eq_true.mp hloc x hx')
    · rcases List.mem_cons.mp hx' with rfl | hx''
      · decide
      · rw [hdom] at hx''
        have hdomchar : emailDomChar x = true := by
          rcases List.mem_append.mp hx'' with hx3 | hx3
          · exact List.all_eq_true.mp hdomR x (List.mem_reverse.mp hx3)
          · rcases List.mem_cons.mp hx3 with rfl | hx4
            · decide
            · exact isAlphaA_emailDomChar
                (List.all_eq_true.mp htld x (List.mem_reverse.mp hx4))
        unfold emailChar; rw [hdomchar]; simp
  refine ⟨?_, hmem, ?_, ?_⟩
  · rw [hdata]
    rcases loc with _ | ⟨y, ys⟩
    · exact absurd rfl hlocne
    · simp
  · intro x hx
    rw [hdata, List.head?_append] at hx
    rcases loc with _ | ⟨y, ys⟩
    · exact absurd rfl hlocne
    · simp only [List.head?_cons, Option.or_some] at hx
      rw [← Option.some_inj.mp hx]
      exact List.all_eq_true.mp hloc y (by simp)
  · intro x hx
    obtain ⟨z, zs, tldR_eq⟩ := List.exists_cons_of_ne_nil htldR_ne
    have hflat : s.data = (loc ++ '@' :: domR.reverse ++ '.' :: zs.reverse) ++ [z] := by
      rw [hdata, hdom, tldR_eq]
      simp [List.reverse_cons, List.append_assoc]
    rw [hflat, List.getLast?_concat] at hx
    rw [← Option.some_inj.mp hx]
    exact List.all_eq_true.mp htld z (by rw [tldR_eq]; simp)

/-! ## Sanitization is the identity on grammar-valid fields -/

lemma trim_eq_self {s : String}
    (h1 : ∀ c, s.data.head? = some c → isSpaceC c = false)
    (h2 : ∀ c, s.data.getLast? = some c → isSpaceC c = false) :
    trim_whitespace s = s := by
  unfold trim_whitespace trimL
  rw [dropWhile_eq_self_of_head h1]
  rw [dropWhile_eq_self_of_head (by intro c hc; exact h2 c (by rwa [List.head?_reverse] at hc))]
  rw [List.reverse_reverse]

lemma replace_eq_self {s : String} (h : ∀ c ∈ s.data, c ≠ ',') :
    replace_commas s = s := by
  unfold replace_commas replaceL
  rw [map_eq_self_of (by intro c hc; rw [if_neg (h c hc)])]

lemma validName_sanitize_id {s : String} (h : validName s = true) : sanitizeField s = s := by
  obtain ⟨-, hall, hhd, hlast, -⟩ := validName_anatomy h
  unfold sanitizeField
  rw [trim_eq_self (fun c hc => alpha_not_space (hhd c hc))
      (fun c hc => alpha_not_space (hlast c hc))]
  exact replace_eq_self (fun c hc => nameMidChar_no_comma (hall c hc))

lemma validPhone_sanitize_id {s : String} (h : validPhone s = true) : sanitizeField s = s := by
  obtain ⟨-, hall, -⟩ := validPhone_anatomy h
  unfold sanitizeField
  rw [trim_eq_self
      (fun c hc => phoneChar_not_space (hall c (List.mem_of_mem_head? hc)))
      (fun c hc => phoneChar_not_space (hall c (List.mem_of_getLast?_eq_some hc)))]
  exact replace_eq_self (fun c hc => phoneChar_no_comma (hall c hc))

lemma validEmail_sanitize_id {s : String} (h : validEmail s = true) : sanitizeField s = s := by
  obtain ⟨-, hall, hhd, hlast⟩ := validEmail_anatomy h
  unfold sanitizeField
  rw [trim_eq_self
      (fun c hc => emailChar_not_space (emailLocalChar_emailChar (hhd c hc)))
      (fun c hc => alpha_not_space (hlast c hc))]
  exact replace_eq_self (fun c hc => emailChar_no_comma (hall c hc))

/-- Sanitization fixes every contact all of whose fields pass their grammars. -/
lemma sanitize_id {c : Contact} (h : validContact c = true) : sanitize_contact c = c := by
  unfold validContact at h
  simp only [Bool.and_eq_true] at h
  obtain ⟨⟨hn, hp⟩, he⟩ := h
  unfold sanitize_contact
  rw [validName_sanitize_id hn, validPhone_sanitize_id hp, validEmail_sanitize_id he]

/-- C9: sanitize is a total function on arbitrary contacts (it is a Lean
function, defined for every input string including the empty one), and on
every contact whose three fields pass their grammars, validate accepts
every field and sanitize is the identity. -/
theorem sanitize_total_id (c : Contact) (h : validContact c = true) :
    validName c.name = true ∧ validPhone c.phone = true ∧ validEmail c.email = true ∧
    sanitize_contact c = c := by
  have h' := h
  unfold validContact at h'
  simp only [Bool.and_eq_true] at h'
  exact ⟨h'.1.1, h'.1.2, h'.2, sanitize_id h⟩

/-- Witness for C9 at a concrete contact. -/
theorem sanitize_total_id_witness :
    validContact ⟨"Alice Smith", "+919876543210", "alice@x.com"⟩ = true ∧
    sanitize_contact ⟨"Alice Smith", "+919876543210", "alice@x.com"⟩ =
      ⟨"Alice Smith", "+919876543210", "alice@x.com"⟩ :=
  ⟨by decide, (sanitize_total_id ⟨"Alice Smith", "+919876543210", "alice@x.com"⟩ (by decide)).2.2.2⟩


/-! ## Sort engine (merge, merge_sort, sort_contacts) -/

/-- C tolower on the ASCII letters, identity elsewhere. -/
def asciiLower (c : Char) : Char :=
  if 'A' ≤ c ∧ c ≤ 'Z' then Char.ofNat (c.toNat + 32) else c

/-- The lowercase image of a string.  strcasecmp compares two strings by
comparing their lowercase images lexicographically, so
strcasecmp(a,b) <= 0 is exactly lowerStr a ≤ lowerStr b. -/
def lowerStr (s : String) : String := ⟨s.data.map asciiLower⟩

/-- The SortField enum of the source. -/
inductive SortField where
  | byName
  | byPhone
  | byEmail
deriving DecidableEq

/-- The comparator of merge: strcasecmp on name, strcmp on phone,
strcasecmp on email; cmp(a,b) <= 0 becomes fieldKey a ≤ fieldKey b. -/
def fieldKey : SortField → Contact → String
  | .byName, c => lowerStr c.name
  | .byPhone, c => c.phone
  | .byEmail, c => lowerStr c.email

/-- merge: take from the left subarray when cmp <= 0 (left-biased). -/
def mergeC (key : Contact → String) : List Contact → List Contact → List Contact
  | [], ys => ys
  | xs, [] => xs
  | x :: xs, y :: ys =>
    if key x ≤ key y then x :: mergeC key xs (y :: ys) else y :: mergeC key (x :: xs) ys

/-- merge_sort: the C call on a segment of n = right-left+1 elements
splits it at mid = left + (n-1)/2, that is into the first (n+1)/2
elements and the rest, recursively sorts both and merges. -/
def merge_sort (key : Contact → String) : List Contact → List Contact
  | [] => []
  | [a] => [a]
  | a :: b :: l =>
    mergeC key (merge_sort key ((a :: b :: l).take (((a :: b :: l).length + 1) / 2)))
               (merge_sort key ((a :: b :: l).drop (((a :: b :: l).length + 1) / 2)))
termination_by l => l.length
decreasing_by
  · simp; omega
  · simp; omega

/-- sort_contacts applies merge_sort to the whole store. -/
def sort_contacts (f : SortField) (store : List Contact) : List Contact :=
  merge_sort (fieldKey f) store

lemma mergeC_eq_merge (key : Contact → String) (xs ys : List Contact) :
    mergeC key xs ys = List.merge xs ys (fun a b => decide (key a ≤ key b)) := by
  induction xs generalizing ys with
  | nil => cases ys <;> simp [mergeC]
  | cons x xs ih =>
    induction ys with
    | nil => simp [mergeC]
    | cons y ys ih2 =>
      simp only [mergeC, List.cons_merge_cons]
      by_cases h : key x ≤ key y
      · rw [if_pos h, if_pos (decide_eq_true h), ih]
      · rw [if_neg h, if_neg (by simp [h]), ih2]

lemma merge_sort_eq_mergeSort (key : Contact → String) : ∀ l : List Contact,
    merge_sort key l = l.mergeSort (fun a b => decide (key a ≤ key b))
  | [] => by simp [merge_sort]
  | [a] => by simp [merge_sort]
  | a :: b :: l => by
    have h1 : ((a :: b :: l).take (((a :: b :: l).length + 1) / 2)).length < l.length + 1 + 1 := by
      simp; omega
    have h2 : ((a :: b :: l).drop (((a :: b :: l).length + 1) / 2)).length < l.length + 1 + 1 := by
      simp; omega
    rw [merge_sort, List.mergeSort]
    rw [mergeC_eq_merge]
    rw [merge_sort_eq_mergeSort key ((a :: b :: l).take (((a :: b :: l).length + 1) / 2))]
    rw [merge_sort_eq_mergeSort key ((a :: b :: l).drop (((a :: b :: l).length + 1) / 2))]
    simp [List.splitInTwo_fst, List.splitInTwo_snd]
termination_by l => l.length

example : sort_contacts .byName [] = [] := by
  simp [sort_contacts, merge_sort]


lemma keyLe_trans (key : Contact → String) : ∀ (a b c : Contact),
    decide (key a ≤ key b) = true → decide (key b ≤ key c) = true →
    decide (key a ≤ key c) = true := by
  intro a b c h1 h2
  simp only [decide_eq_true_eq] at h1 h2 ⊢
  exact le_trans h1 h2

lemma keyLe_total (key : Contact → String) : ∀ (a b : Contact),
    (decide (key a ≤ key b) || decide (key b ≤ key a)) = true := by
  intro a b
  rcases le_total (key a) (key b) with h | h
  · simp [h]
  · simp [h]

/-- Stability of the sort: the subsequence of elements with any fixed
key value is unchanged. -/
lemma merge_sort_filter (key : Contact → String) (l : List Contact) (v : String) :
    (merge_sort key l).filter (fun c => decide (key c = v)) =
      l.filter (fun c => decide (key c = v)) := by
  rw [merge_sort_eq_mergeSort]
  have hkeyv : ∀ x ∈ l.filter (fun c => decide (key c = v)), key x = v := by
    intro x hx
    simpa using (List.mem_filter.mp hx).2
  have hpair : (l.filter (fun c => decide (key c = v))).Pairwise
      (fun a b => decide (key a ≤ key b) = true) := by
    apply List.pairwise_of_forall_mem_list
    intro a ha b hb
    simp [hkeyv a ha, hkeyv b hb]
  have hsub : List.Sublist (l.filter (fun c => decide (key c = v)))
      (List.mergeSort l (fun a b => decide (key a ≤ key b))) :=
    List.sublist_mergeSort (keyLe_trans key) (keyLe_total key) hpair (List.filter_sublist l)
  have hsub2 : List.Sublist (l.filter (fun c => decide (key c = v)))
      ((List.mergeSort l (fun a b => decide (key a ≤ key b))).filter
        (fun c => decide (key c = v))) := by
    have h' := hsub.filter (fun c => decide (key c = v))
    have hself : (l.filter (fun c => decide (key c = v))).filter
        (fun c => decide (key c = v)) = l.filter (fun c => decide (key c = v)) := by
      rw [List.filter_eq_self]
      intro a ha
      exact (List.mem_filter.mp ha).2
    rwa [hself] at h'
  have hlen : ((List.mergeSort l (fun a b => decide (key a ≤ key b))).filter
      (fun c => decide (key c = v))).length =
      (l.filter (fun c => decide (key c = v))).length :=
    ((List.mergeSort_perm l (fun a b => decide (key a ≤ key b))).filter
      (fun c => decide (key c = v))).length_eq
  exact (hsub2.eq_of_length hlen.symm).symm

/-- C2: sort is a stable merge sort with left-biased tie-break: for every
sort field, the contacts with any fixed key value keep their relative
input order; sorting an already sorted store leaves it unchanged; and
sorting twice by the same field equals sorting once. -/
theorem sort_stable_spec (f : SortField) (l : List Contact) :
    (∀ v : String, (sort_contacts f l).filter (fun c => decide (fieldKey f c = v)) =
        l.filter (fun c => decide (fieldKey f c = v))) ∧
    (l.Pairwise (fun a b => fieldKey f a ≤ fieldKey f b) → sort_contacts f l = l) ∧
    sort_contacts f (sort_contacts f l) = sort_contacts f l := by
  refine ⟨fun v => merge_sort_filter _ l v, ?_, ?_⟩
  · intro hsorted
    rw [sort_contacts, merge_sort_eq_mergeSort]
    exact List.mergeSort_of_sorted (hsorted.imp (fun h => decide_eq_true h))
  · rw [sort_contacts, sort_contacts, merge_sort_eq_mergeSort, merge_sort_eq_mergeSort]
    exact List.mergeSort_of_sorted
      (List.sorted_mergeSort (keyLe_trans _) (keyLe_total _) l)

/-- Witness for C2 at a concrete store. -/
theorem sort_stable_spec_witness :
    ([⟨"Bob", "+14155552671", "bob@x.com"⟩] : List Contact).Pairwise
      (fun a b => fieldKey .byName a ≤ fieldKey .byName b) ∧
    sort_contacts .byName [⟨"Bob", "+14155552671", "bob@x.com"⟩] =
      [⟨"Bob", "+14155552671", "bob@x.com"⟩] :=
  ⟨List.pairwise_singleton _ _,
    (sort_stable_spec .byName [⟨"Bob", "+14155552671", "bob@x.com"⟩]).2.1
      (List.pairwise_singleton _ _)⟩

/-- C10: sorting by any field permutes the store: the size is unchanged
and every contact record occurs exactly as often as before; nothing is
lost, duplicated or modified. -/
theorem sort_permutation (f : SortField) (store : List Contact) :
    (sort_contacts f store).Perm store ∧
    (sort_contacts f store).length = store.length ∧
    ∀ c : Contact, (sort_contacts f store).count c = store.count c := by
  have hperm : (sort_contacts f store).Perm store := by
    rw [sort_contacts, merge_sort_eq_mergeSort]
    exact List.mergeSort_perm store _
  exact ⟨hperm, hperm.length_eq, fun c => hperm.count_eq c⟩


/-! ## Contact store operations: find, add, update, delete -/

/-- strcasecmp(a,b) == 0: the lowercase images coincide. -/
def lowerEq (a b : String) : Bool := lowerStr a == lowerStr b

/-- Index of the first store entry whose name matches the given name
case-insensitively (the linear scan of update_contact and
delete_contacts). -/
def findIdxByName : List Contact → String → Option Nat
  | [], _ => none
  | c :: cs, name =>
    if lowerEq c.name name then some 0 else (findIdxByName cs name).map (· + 1)

/-- Result of add_contacts. -/
inductive AddResult where
  | capacityExceeded
  | added
deriving DecidableEq

/-- add_contacts: refuse when the store already holds MAX_CONTACTS = 100
entries, otherwise append the (already validated) contact at the end.
Field validation happens at input capture: get_valid_input re-prompts
until each field passes its grammar, so the supplied contact reaching
the append is grammar-valid. -/
def add_contacts (store : List Contact) (c : Contact) : List Contact × AddResult :=
  if 100 ≤ store.length then (store, .capacityExceeded) else (store ++ [c], .added)

/-- Result of delete_contacts. -/
inductive DeleteResult where
  | notFound
  | cancelled
  | deleted
deriving DecidableEq

/-- delete_contacts: find the first case-insensitive match; if none
report not found; on confirmation 'y' or 'Y' remove that entry by
shifting all later entries one slot to the left. -/
def delete_contacts (store : List Contact) (name : String) (confirm : Char) :
    List Contact × DeleteResult :=
  match findIdxByName store name with
  | none => (store, .notFound)
  | some i =>
    if confirm = 'y' ∨ confirm = 'Y' then (store.eraseIdx i, .deleted)
    else (store, .cancelled)

/-- Result of update_contact. -/
inductive UpdateResult where
  | notFound
  | duplicateName
  | done (changed : Bool)
deriving DecidableEq

/-- The duplicate scan of update_contact: is there a record other than
the one at index i whose name equals the new name case-insensitively? -/
def hasDupAt (store : List Contact) (i : Nat) (newName : String) : Bool :=
  (List.range store.length).any
    (fun j => j != i && lowerEq (store.getD j emptyContact).name newName)

/-- update_contact: find the first case-insensitive match; an empty
supplied field keeps the current value; a non-empty supplied name that
differs (strcmp) from the current name is first checked against all
other records and the whole update is aborted on a collision; each
non-empty supplied field that differs from the current value replaces
it; reports whether anything changed.  As with add, the supplied values
are empty-or-valid because get_optional_valid_input re-prompts. -/
def update_contact (store : List Contact) (name newName newPhone newEmail : String) :
    List Contact × UpdateResult :=
  match findIdxByName store name with
  | none => (store, .notFound)
  | some i =>
    let c := store.getD i emptyContact
    let nameApplies := newName != "" && newName != c.name
    if nameApplies && hasDupAt store i newName then (store, .duplicateName)
    else
      let phoneApplies := newPhone != "" && newPhone != c.phone
      let emailApplies := newEmail != "" && newEmail != c.email
      (store.set i
        ⟨if nameApplies then newName else c.name,
         if phoneApplies then newPhone else c.phone,
         if emailApplies then newEmail else c.email⟩,
       .done (nameApplies || phoneApplies || emailApplies))


/-! ## Properties of findIdxByName -/

lemma findIdxByName_spec : ∀ {store : List Contact} {name : String} {i : Nat},
    findIdxByName store name = some i →
    i < store.length ∧ lowerEq (store.getD i emptyContact).name name = true ∧
      ∀ j, j < i → lowerEq (store.getD j emptyContact).name name = false := by
  intro store
  induction store with
  | nil => intro name i h; exact absurd h (by simp [findIdxByName])
  | cons c cs ih =>
    intro name i h
    unfold findIdxByName at h
    by_cases hc : lowerEq c.name name = true
    · rw [if_pos hc] at h
      obtain rfl : i = 0 := (Option.some_inj.mp h).symm
      exact ⟨by simp, by simpa using hc, fun j hj => absurd hj (by omega)⟩
    · rw [if_neg hc] at h
      cases hf : findIdxByName cs name with
      | none => rw [hf] at h; exact absurd h (by simp)
      | some k =>
        rw [hf] at h
        simp only [Option.map_some'] at h
        obtain rfl : i = k + 1 := (Option.some_inj.mp h).symm
        obtain ⟨h1, h2, h3⟩ := ih hf
        refine ⟨by simpa using Nat.succ_lt_succ h1, by simpa using h2, ?_⟩
        intro j hj
        cases j with
        | zero => simpa using (Bool.not_eq_true _).mp hc
        | succ j' => simpa using h3 j' (by omega)

lemma findIdxByName_none : ∀ {store : List Contact} {name : String},
    findIdxByName store name = none ↔ ∀ c ∈ store, lowerEq c.name name = false := by
  intro store
  induction store with
  | nil => intro name; simp [findIdxByName]
  | cons c cs ih =>
    intro name
    unfold findIdxByName
    by_cases hc : lowerEq c.name name = true
    · rw [if_pos hc]
      simp only [reduceCtorEq, false_iff]
      intro hall
      rw [hall c (by simp)] at hc
      exact absurd hc (by simp)
    · rw [if_neg hc]
      constructor
      · intro h x hx
        rcases List.mem_cons.mp hx with rfl | hx'
        · exact (Bool.not_eq_true _).mp hc
        · exact ih.mp (by simpa using h) x hx'
      · intro hall
        simp only [Option.map_eq_none']
        exact ih.mpr (fun x hx => hall x (by simp [hx]))


/-! ## Concrete contacts used by the witnesses -/

/-- A grammar-valid contact. -/
def alice : Contact := ⟨"Alice Smith", "+919876543210", "alice@x.com"⟩

/-- alice after the C7 scenario update. -/
def aliceUpd : Contact := ⟨"Alice Smith", "+14155552671", "alice@x.com"⟩

/-- A second grammar-valid contact. -/
def bob : Contact := ⟨"Bob Jones", "+14155552671", "bob@x.com"⟩

/-- C4: add to a store already holding exactly 100 entries fails with
CapacityExceeded leaving the store untouched (still 100 entries, no
entry modified); add of a grammar-valid contact to a store below
capacity appends it at the end, preserving the existing order. -/
theorem add_capacity_spec (store : List Contact) (c : Contact) :
    (store.length = 100 → add_contacts store c = (store, .capacityExceeded)) ∧
    (store.length < 100 → validContact c = true →
      add_contacts store c = (store ++ [c], .added)) := by
  constructor
  · intro h; unfold add_contacts; rw [if_pos (by omega)]
  · intro h _; unfold add_contacts; rw [if_neg (by omega)]

/-- Witness for C4: a full store of 100 entries refuses the add and an
empty store appends. -/
theorem add_capacity_spec_witness :
    (List.replicate 100 emptyContact).length = 100 ∧
    add_contacts (List.replicate 100 emptyContact) alice =
      (List.replicate 100 emptyContact, .capacityExceeded) ∧
    validContact alice = true ∧
    add_contacts [] alice = ([alice], .added) :=
  ⟨by simp, (add_capacity_spec (List.replicate 100 emptyContact) alice).1 (by simp),
   by decide, (add_capacity_spec [] alice).2 (by simp) (by decide)⟩

/-- C5: when the store contains a case-insensitive exact match, a
confirmed delete removes the first such match (everything before it and
after it is kept in order), shrinking the store by exactly one;
when no entry matches, delete reports NotFound and leaves the store
unchanged. -/
theorem delete_spec (store : List Contact) (name : String) (confirm : Char) :
    (∀ i, findIdxByName store name = some i → (confirm = 'y' ∨ confirm = 'Y') →
      delete_contacts store name confirm =
        (store.take i ++ store.drop (i + 1), .deleted) ∧
      store.length = (store.take i ++ store.drop (i + 1)).length + 1 ∧
      lowerEq (store.getD i emptyContact).name name = true ∧
      (∀ j, j < i → lowerEq (store.getD j emptyContact).name name = false)) ∧
    (findIdxByName store name = none →
      delete_contacts store name confirm = (store, .notFound)) ∧
    (findIdxByName store name = none ↔ ∀ c ∈ store, lowerEq c.name name = false) := by
  refine ⟨?_, ?_, findIdxByName_none⟩
  · intro i hf hconf
    obtain ⟨hlt, hmatch, hfirst⟩ := findIdxByName_spec hf
    constructor
    · unfold delete_contacts
      rw [hf]
      simp only [if_pos hconf]
      rw [List.eraseIdx_eq_take_drop_succ]
    · refine ⟨?_, hmatch, hfirst⟩
      have h1 : (store.take i).length = i := by simp; omega
      have h2 : (store.drop (i + 1)).length = store.length - (i + 1) := by simp
      rw [List.length_append, h1, h2]
      omega
  · intro hf
    unfold delete_contacts
    rw [hf]

/-- Witness for C5: deleting "bob jones" (case-insensitive) from
[alice, bob] with confirmation removes bob, and deleting a missing name
reports NotFound. -/
theorem delete_spec_witness :
    delete_contacts [alice, bob] "bob jones" 'y' = ([alice], .deleted) ∧
    delete_contacts [alice] "Nobody Here" 'y' = ([alice], .notFound) := by
  constructor
  · have h := ((delete_spec [alice, bob] "bob jones" 'y').1 1 (by decide) (Or.inl rfl)).1
    rw [h]; decide
  · exact (delete_spec [alice] "Nobody Here" 'y').2.1 (by decide)


lemma bne_and_bne_eq_decide (a b c : String) :
    (a != b && a != c) = decide (¬(a = b ∨ a = c)) := by
  by_cases h1 : a = b <;> by_cases h2 : a = c <;> simp [h1, h2]

/-- C3: when the supplied new name is non-empty, differs from the
target's current name, and collides case-insensitively with another
record, the update returns DuplicateName and the store is returned
exactly as it was: no field of any contact changes. -/
theorem update_duplicate_aborts (store : List Contact)
    (name newName newPhone newEmail : String) (i : Nat)
    (hf : findIdxByName store name = some i) (hne : newName ≠ "")
    (hdiff : newName ≠ (store.getD i emptyContact).name)
    (hdup : ∃ j, j < store.length ∧ j ≠ i ∧
      lowerEq (store.getD j emptyContact).name newName = true) :
    update_contact store name newName newPhone newEmail = (store, .duplicateName) := by
  unfold update_contact
  rw [hf]
  have hdup' : hasDupAt store i newName = true := by
    unfold hasDupAt
    rw [List.any_eq_true]
    obtain ⟨j, hj1, hj2, hj3⟩ := hdup
    refine ⟨j, List.mem_range.mpr hj1, ?_⟩
    rw [Bool.and_eq_true]
    exact ⟨bne_iff_ne.mpr hj2, hj3⟩
  have hna : (newName != "" && newName != (store.getD i emptyContact).name) = true := by
    rw [Bool.and_eq_true]
    exact ⟨bne_iff_ne.mpr hne, bne_iff_ne.mpr hdiff⟩
  simp only [hna, hdup', Bool.and_self, if_pos]

/-- Witness for C3: renaming Alice to a name colliding with Bob
case-insensitively aborts the whole update. -/
theorem update_duplicate_aborts_witness :
    update_contact [alice, bob] "Alice Smith" "BOB JONES" "+1222333" "zz@y.de" =
      ([alice, bob], .duplicateName) :=
  update_duplicate_aborts [alice, bob] "Alice Smith" "BOB JONES" "+1222333" "zz@y.de" 0
    (by decide) (by decide) (by decide) ⟨1, by decide, by decide, by decide⟩

/-- C7: update on a found record keeps each field whose supplied value
is empty or equal to the current value, replaces each field whose
non-empty supplied value differs, and reports changed = true exactly
when some field was actually replaced. -/
theorem update_field_semantics (store : List Contact) (name nn np ne : String) (i : Nat)
    (hf : findIdxByName store name = some i)
    (hnodup : ¬((nn != "" && nn != (store.getD i emptyContact).name) = true ∧
        hasDupAt store i nn = true)) :
    update_contact store name nn np ne =
      (store.set i
        ⟨if nn = "" ∨ nn = (store.getD i emptyContact).name
           then (store.getD i emptyContact).name else nn,
         if np = "" ∨ np = (store.getD i emptyContact).phone
           then (store.getD i emptyContact).phone else np,
         if ne = "" ∨ ne = (store.getD i emptyContact).email
           then (store.getD i emptyContact).email else ne⟩,
       .done (decide (¬(nn = "" ∨ nn = (store.getD i emptyContact).name) ∨
                      ¬(np = "" ∨ np = (store.getD i emptyContact).phone) ∨
                      ¬(ne = "" ∨ ne = (store.getD i emptyContact).email)))) := by
  unfold update_contact
  rw [hf]
  have hcond : ((nn != "" && nn != (store.getD i emptyContact).name) &&
      hasDupAt store i nn) = false := by
    cases hA : (nn != "" && nn != (store.getD i emptyContact).name) with
    | false => rw [Bool.false_and]
    | true =>
      cases hB : hasDupAt store i nn with
      | false => rw [Bool.true_and]
      | true => exact absurd ⟨hA, hB⟩ hnodup
  simp only [hcond, Bool.false_eq_true, if_false]
  rw [bne_and_bne_eq_decide nn "" (store.getD i emptyContact).name,
      bne_and_bne_eq_decide np "" (store.getD i emptyContact).phone,
      bne_and_bne_eq_decide ne "" (store.getD i emptyContact).email]
  simp only [decide_eq_true_eq, ite_not, Bool.decide_or, Bool.or_assoc]

/-- Witness for C7: the spec scenario, updating Alice with empty name,
a new phone and empty email changes only the phone and reports
changed = true. -/
theorem update_field_semantics_witness :
    update_contact [alice] "Alice Smith" "" "+14155552671" "" = ([aliceUpd], .done true) :=
  (update_field_semantics [alice] "Alice Smith" "" "+14155552671" "" 0
    (by decide) (by decide)).trans (by decide)


/-! ## CSV codec (save_contacts, load_contacts) -/

/-- The bytes of one CSV line: fprintf(file, "%s, %s, %s\\n", name,
phone, email). -/
def csvLineData (c : Contact) : List Char :=
  c.name.data ++ ',' :: ' ' :: c.phone.data ++ ',' :: ' ' :: c.email.data ++ ['\n']

/-- save_contacts: sanitize every stored contact in place, then write
one CSV line per contact to a temporary file and atomically rename it
over contacts.txt.  Returns the mutated store and the file content. -/
def save_contacts (store : List Contact) : List Contact × List Char :=
  (store.map sanitize_contact, ((store.map sanitize_contact).map csvLineData).flatten)

/-- One fgets call with a buffer of w+1 bytes: consume at most w
characters, stopping after the first newline. -/
def takeLine (w : Nat) : List Char → List Char × List Char
  | [] => ([], [])
  | c :: cs =>
    match w with
    | 0 => ([], c :: cs)
    | w' + 1 =>
      if c = '\n' then ([c], cs)
      else
        let p := takeLine w' cs
        (c :: p.1, p.2)

/-- The fgets loop, fuel-driven; the fuel is the file length, which is
enough because each fgets on a non-empty rest consumes at least one
character. -/
def readLinesAux (w : Nat) : Nat → List Char → List (List Char)
  | 0, _ => []
  | _ + 1, [] => []
  | fuel + 1, c :: cs =>
    let p := takeLine w (c :: cs)
    p.1 :: readLinesAux w fuel p.2

/-- All fgets chunks of the file with a buffer of w+1 bytes
(load_contacts uses char line[100], so w = 99). -/
def readLines (w : Nat) (cs : List Char) : List (List Char) := readLinesAux w cs.length cs

/-- line[strcspn(line, "\\n")] = 0: the chunk truncated at its first
newline. -/
def lineOf (chunk : List Char) : List Char := chunk.takeWhile (fun c => c != '\n')

/-- One %w[^stop] conversion of sscanf: consume at most w characters
from the scan set; it matches nothing when the rest is empty or starts
with a character outside the set. -/
def scanSet (p : Char → Bool) (w : Nat) : List Char → List Char × List Char
  | [] => ([], [])
  | c :: cs =>
    match w with
    | 0 => ([], c :: cs)
    | w' + 1 =>
      if p c then
        let q := scanSet p w' cs
        (c :: q.1, q.2)
      else ([], c :: cs)

/-- sscanf(line, "%49[^,], %16[^,], %253[^\\n]", name, phone, email):
three scan-set conversions, each followed (except the last) by a
literal comma and a whitespace skip; some record exactly when all three
fields are assigned (sscanf result == 3). -/
def parseLine (line : List Char) : Option Contact :=
  let n := scanSet (fun c => c != ',') 49 line
  if n.1.isEmpty then none
  else
    match n.2 with
    | ',' :: r2 =>
      let p := scanSet (fun c => c != ',') 16 (r2.dropWhile isSpaceC)
      if p.1.isEmpty then none
      else
        match p.2 with
        | ',' :: r5 =>
          let e := scanSet (fun c => c != '\n') 253 (r5.dropWhile isSpaceC)
          if e.1.isEmpty then none
          else some ⟨⟨n.1⟩, ⟨p.1⟩, ⟨e.1⟩⟩
        | _ => none
    | _ => none

/-- The line loop of load_contacts: process fgets chunks while the
store is below capacity MAX_CONTACTS = 100; a chunk whose line does not
yield three fields is skipped with a warning; otherwise the record is
sanitized, validated against all three grammars (skipped on failure)
and stored. -/
def loadStep : List (List Char) → Nat → List Contact
  | [], _ => []
  | chunk :: rest, cnt =>
    if 100 ≤ cnt then []
    else
      match parseLine (lineOf chunk) with
      | none => loadStep rest cnt
      | some c =>
        let c' := sanitize_contact c
        if validContact c' then c' :: loadStep rest (cnt + 1) else loadStep rest cnt

/-- load_contacts: reset the store, read contacts.txt line by line into
a 100-byte buffer, and collect the records that parse and validate. -/
def load_contacts (file : List Char) : List Contact := loadStep (readLines 99 file) 0




/-! ## fgets chunking lemmas -/

lemma takeLine_snd_le : ∀ (w : Nat) (cs : List Char), (takeLine w cs).2.length ≤ cs.length := by
  intro w cs
  induction cs generalizing w with
  | nil => simp [takeLine]
  | cons c cs ih =>
    cases w with
    | zero => simp [takeLine]
    | succ w' =>
      by_cases hc : c = '\n'
      · simp [takeLine, hc]
      · simp only [takeLine, if_neg hc]
        exact le_trans (ih w') (by simp)

lemma takeLine_append : ∀ (w : Nat) (content rest : List Char),
    (∀ c ∈ content, c ≠ '\n') → content.length ≤ w →
    takeLine (w + 1) (content ++ '\n' :: rest) = (content ++ ['\n'], rest) := by
  intro w content
  induction content generalizing w with
  | nil => intro rest _ _; simp [takeLine]
  | cons c cs ih =>
    intro rest hnl hlen
    cases w with
    | zero => exact absurd hlen (by simp)
    | succ w' =>
      have hc : c ≠ '\n' := hnl c (by simp)
      simp only [List.cons_append, takeLine, if_neg hc, List.append_eq,
        ih w' rest (fun x hx => hnl x (by simp [hx])) (by simpa using hlen)]

lemma readLinesAux_congr (w : Nat) : ∀ (f1 f2 : Nat) (cs : List Char),
    cs.length ≤ f1 → cs.length ≤ f2 →
    readLinesAux (w + 1) f1 cs = readLinesAux (w + 1) f2 cs := by
  intro f1
  induction f1 with
  | zero =>
    intro f2 cs h1 h2
    obtain rfl : cs = [] := List.length_eq_zero.mp (by omega)
    cases f2 <;> rfl
  | succ f1' ih =>
    intro f2 cs h1 h2
    cases cs with
    | nil => cases f2 <;> rfl
    | cons c cs' =>
      cases f2 with
      | zero => exact absurd h2 (by simp)
      | succ f2' =>
        simp only [readLinesAux]
        have hlt : (takeLine (w + 1) (c :: cs')).2.length < (c :: cs').length := by
          by_cases hc : c = '\n'
          · simp [takeLine, hc]
          · simp only [takeLine, if_neg hc]
            exact Nat.lt_succ_of_le (takeLine_snd_le w cs')
        rw [ih f2' _ (by omega) (by omega)]

lemma readLines_cons (w : Nat) (content rest : List Char)
    (hnl : ∀ c ∈ content, c ≠ '\n') (hlen : content.length ≤ w) :
    readLines (w + 1) (content ++ '\n' :: rest) =
      (content ++ ['\n']) :: readLines (w + 1) rest := by
  unfold readLines
  have hL : (content ++ '\n' :: rest).length = content.length + rest.length + 1 := by
    simp; omega
  cases hcc : content ++ '\n' :: rest with
  | nil => exact absurd hcc (by cases content <;> simp)
  | cons a as =>
    rw [← hcc, hL]
    have hstep : readLinesAux (w + 1) (content.length + rest.length + 1)
        (content ++ '\n' :: rest) =
        (takeLine (w + 1) (content ++ '\n' :: rest)).1 ::
          readLinesAux (w + 1) (content.length + rest.length)
            (takeLine (w + 1) (content ++ '\n' :: rest)).2 := by
      rw [hcc]
      rfl
    rw [hstep, takeLine_append w content rest hnl hlen]
    rw [readLinesAux_congr w (content.length + rest.length) rest.length rest (by omega) le_rfl]


/-! ## sscanf lemmas -/

lemma scanSet_append : ∀ (w : Nat) (xs ys : List Char) (p : Char → Bool),
    (∀ c ∈ xs, p c = true) → xs.length ≤ w →
    (∀ d, ys.head? = some d → p d = false) →
    scanSet p w (xs ++ ys) = (xs, ys) := by
  intro w xs
  induction xs generalizing w with
  | nil =>
    intro ys p _ _ hys
    cases ys with
    | nil => cases w <;> rfl
    | cons d ds =>
      have hd : p d = false := hys d rfl
      cases w with
      | zero => rfl
      | succ w' => simp [scanSet, hd]
  | cons x xs' ih =>
    intro ys p hxs hlen hys
    cases w with
    | zero => exact absurd hlen (by simp)
    | succ w' =>
      have hx : p x = true := hxs x (by simp)
      simp only [List.cons_append, scanSet, if_pos hx, List.append_eq,
        ih w' ys p (fun c hc => hxs c (by simp [hc])) (by simpa using hlen) hys]

lemma takeWhile_append_stop {p : Char → Bool} : ∀ (xs : List Char) {y : Char} (ys : List Char),
    (∀ c ∈ xs, p c = true) → p y = false → (xs ++ y :: ys).takeWhile p = xs := by
  intro xs
  induction xs with
  | nil => intro y ys _ hy; simp [List.takeWhile_cons, hy]
  | cons x xs' ih =>
    intro y ys hxs hy
    have hx : p x = true := hxs x (by simp)
    simp only [List.cons_append, List.takeWhile_cons, hx, if_true]
    rw [ih ys (fun c hc => hxs c (by simp [hc])) hy]

/-- Parsing one saved line of a grammar-valid record (whose name fits
the %49 width and whose email fits the %253 width) recovers the record
exactly. -/
lemma parseLine_csv (c : Contact) (hv : validContact c = true)
    (hname : c.name.data.length ≤ 49) (hemail : c.email.data.length ≤ 253) :
    parseLine (c.name.data ++ (',' :: ' ' :: (c.phone.data ++ (',' :: ' ' :: c.email.data)))) =
      some c := by
  have hv' := hv
  unfold validContact at hv'
  simp only [Bool.and_eq_true] at hv'
  obtain ⟨⟨hn, hp⟩, he⟩ := hv'
  obtain ⟨hn_ne, hn_all, -, -, -⟩ := validName_anatomy hn
  obtain ⟨hp_ne, hp_all, hp_len⟩ := validPhone_anatomy hp
  obtain ⟨he_ne, he_all, he_hd, -⟩ := validEmail_anatomy he
  simp only [parseLine]
  rw [scanSet_append 49 c.name.data (',' :: ' ' :: (c.phone.data ++ (',' :: ' ' :: c.email.data)))
      (fun c => c != ',')
      (fun x hx => by simpa using nameMidChar_no_comma (hn_all x hx))
      hname (fun d hd => by simp at hd; rw [← hd]; simp)]
  simp only [List.isEmpty_eq_true, hn_ne, if_false]
  obtain ⟨q, qs, hq⟩ := List.exists_cons_of_ne_nil hp_ne
  have hq_nospace : isSpaceC q = false :=
    phoneChar_not_space (hp_all q (by rw [hq]; simp))
  have hphone_drop : (' ' :: (c.phone.data ++ (',' :: ' ' :: c.email.data))).dropWhile isSpaceC =
      c.phone.data ++ (',' :: ' ' :: c.email.data) := by
    rw [List.dropWhile_cons_of_pos (by decide), hq,
      List.cons_append, List.dropWhile_cons_of_neg (by simp [hq_nospace])]
  rw [hphone_drop]
  rw [scanSet_append 16 c.phone.data (',' :: ' ' :: c.email.data) (fun c => c != ',')
      (fun x hx => by simpa using phoneChar_no_comma (hp_all x hx))
      (by simpa using hp_len) (fun d hd => by simp at hd; rw [← hd]; simp)]
  simp only [List.isEmpty_eq_true, hp_ne, if_false]
  obtain ⟨t, ts, ht⟩ := List.exists_cons_of_ne_nil he_ne
  have ht_nospace : isSpaceC t = false := by
    refine emailChar_not_space (emailLocalChar_emailChar (he_hd t ?_))
    rw [ht]; rfl
  have hemail_drop : (' ' :: c.email.data).dropWhile isSpaceC = c.email.data := by
    rw [List.dropWhile_cons_of_pos (by decide), ht,
      List.dropWhile_cons_of_neg (by simp [ht_nospace])]
  rw [hemail_drop]
  have hscan3 : scanSet (fun c => c != '\n') 253 (c.email.data ++ []) =
      (c.email.data, []) :=
    scanSet_append 253 c.email.data [] (fun c => c != '\n')
      (fun x hx => by simpa using emailChar_no_nl (he_all x hx))
      hemail (fun d hd => by simp at hd)
  rw [List.append_nil] at hscan3
  rw [hscan3]
  simp only [List.isEmpty_eq_true, he_ne, if_false]


/-! ## The CSV round trip -/

lemma contentChars {c : Contact} (hv : validContact c = true) :
    ∀ x ∈ c.name.data ++ (',' :: ' ' :: (c.phone.data ++ (',' :: ' ' :: c.email.data))),
      x ≠ '\n' := by
  have hv' := hv
  unfold validContact at hv'
  simp only [Bool.and_eq_true] at hv'
  obtain ⟨⟨hn, hp⟩, he⟩ := hv'
  obtain ⟨-, hn_all, -, -, -⟩ := validName_anatomy hn
  obtain ⟨-, hp_all, -⟩ := validPhone_anatomy hp
  obtain ⟨-, he_all, -, -⟩ := validEmail_anatomy he
  intro x hx
  rcases List.mem_append.mp hx with hx1 | hx1
  · exact nameMidChar_no_nl (hn_all x hx1)
  · rcases List.mem_cons.mp hx1 with rfl | hx2
    · decide
    · rcases List.mem_cons.mp hx2 with rfl | hx3
      · decide
      · rcases List.mem_append.mp hx3 with hx4 | hx4
        · exact phoneChar_no_nl (hp_all x hx4)
        · rcases List.mem_cons.mp hx4 with rfl | hx5
          · decide
          · rcases List.mem_cons.mp hx5 with rfl | hx6
            · decide
            · exact emailChar_no_nl (he_all x hx6)

lemma loadStep_save : ∀ (store : List Contact) (cnt : Nat),
    cnt + store.length ≤ 100 →
    (∀ c ∈ store, validContact c = true) →
    (∀ c ∈ store, c.name.data.length ≤ 49) →
    (∀ c ∈ store, c.name.data.length + c.phone.data.length + c.email.data.length + 4 ≤ 98) →
    loadStep (readLines 99 ((store.map csvLineData).flatten)) cnt = store := by
  intro store
  induction store with
  | nil => intro cnt _ _ _ _; rfl
  | cons c store' ih =>
    intro cnt hcnt hv hn hl
    simp only [List.length_cons] at hcnt
    have hvc : validContact c = true := hv c (by simp)
    have hnc : c.name.data.length ≤ 49 := hn c (by simp)
    have hlc : c.name.data.length + c.phone.data.length + c.email.data.length + 4 ≤ 98 :=
      hl c (by simp)
    have hfile : ((c :: store').map csvLineData).flatten =
        (c.name.data ++ (',' :: ' ' :: (c.phone.data ++ (',' :: ' ' :: c.email.data)))) ++
          '\n' :: (store'.map csvLineData).flatten := by
      simp [csvLineData, List.append_assoc]
    have hclen : (c.name.data ++
        (',' :: ' ' :: (c.phone.data ++ (',' :: ' ' :: c.email.data)))).length ≤ 98 := by
      simp only [List.length_append, List.length_cons]
      omega
    rw [hfile, readLines_cons 98 _ _ (contentChars hvc) hclen]
    have hlineOf : lineOf ((c.name.data ++
        (',' :: ' ' :: (c.phone.data ++ (',' :: ' ' :: c.email.data)))) ++ ['\n']) =
        c.name.data ++ (',' :: ' ' :: (c.phone.data ++ (',' :: ' ' :: c.email.data))) := by
      unfold lineOf
      exact takeWhile_append_stop _ []
        (fun x hx => by simpa using contentChars hvc x hx) (by decide)
    unfold loadStep
    rw [if_neg (by omega), hlineOf, parseLine_csv c hvc hnc (by omega)]
    simp only [sanitize_id hvc, hvc, if_true]
    rw [ih (cnt + 1) (by omega) (fun x hx => hv x (by simp [hx]))
        (fun x hx => hn x (by simp [hx])) (fun x hx => hl x (by simp [hx]))]

/-- C1 (amended): for every store of at most 100 contacts that all pass
validation, whose names fit the 50-byte name buffer (at most 49
characters) and whose CSV lines fit the 100-byte line buffer of
load_contacts (name, phone and email plus the four separator bytes at
most 98 characters), saving to CSV and loading into a fresh store
reproduces the same ordered sequence of contacts field for field. -/
theorem csv_roundtrip_bounded (store : List Contact)
    (hcap : store.length ≤ 100)
    (hv : ∀ c ∈ store, validContact c = true)
    (hname : ∀ c ∈ store, c.name.data.length ≤ 49)
    (hline : ∀ c ∈ store,
      c.name.data.length + c.phone.data.length + c.email.data.length + 4 ≤ 98) :
    load_contacts (save_contacts store).2 = store := by
  unfold load_contacts save_contacts
  have hmap : store.map sanitize_contact = store :=
    map_eq_self_of (fun c hc => sanitize_id (hv c hc))
  simp only [hmap]
  exact loadStep_save store 0 (by omega) hv hname hline

/-- Witness for C1 (amended) at a concrete one-contact store. -/
theorem csv_roundtrip_bounded_witness :
    (∀ c ∈ [alice], validContact c = true) ∧
    load_contacts (save_contacts [alice]).2 = [alice] :=
  ⟨by decide, csv_roundtrip_bounded [alice] (by decide) (by decide) (by decide) (by decide)⟩

/-- A grammar-valid email of 90 characters; its CSV line has 104 bytes
and does not fit the 100-byte line buffer of load_contacts. -/
def longEmail : String := ⟨List.replicate 85 'a' ++ "@b.co".data⟩

/-- A grammar-valid contact whose saved CSV line is 105 bytes long
(content 104 plus newline). -/
def overflowContact : Contact := ⟨"Ab", "+1234567", longEmail⟩

/-- C1 as stated is refuted: the store [overflowContact] consists of
contacts that all pass validation and has size 1 ≤ 100, yet saving and
re-loading does not reproduce it: fgets with the 100-byte buffer splits
the long line after 99 characters, the first fragment's email field
(85 letters a) fails EMAIL_REGEX and is skipped, and the second
fragment "@b.co" does not split into three fields, so the reloaded
store is empty. -/
theorem csv_roundtrip_counterexample :
    validContact overflowContact = true ∧
    ([overflowContact] : List Contact).length ≤ 100 ∧
    load_contacts (save_contacts [overflowContact]).2 = [] ∧
    load_contacts (save_contacts [overflowContact]).2 ≠ [overflowContact] := by
  refine ⟨by decide, by decide, by decide, ?_⟩
  intro h
  rw [show load_contacts (save_contacts [overflowContact]).2 = [] from by decide] at h
  exact absurd h (by decide)

/-- C6: a line that does not split into exactly three fields is skipped
without incrementing the loaded count and without stopping the decode
loop; a split record failing any grammar after sanitization is skipped
the same way; in particular the line "Bad;Line,no,proper,split" is
skipped (it splits into name "Bad;Line", phone "no", email
"proper,split", and the name fails NAME_REGEX), leaving the loaded
count unchanged and propagating no error. -/
theorem csv_malformed_skip :
    (∀ chunk rest cnt, cnt < 100 → parseLine (lineOf chunk) = none →
      loadStep (chunk :: rest) cnt = loadStep rest cnt) ∧
    (∀ chunk rest cnt c, cnt < 100 → parseLine (lineOf chunk) = some c →
      validContact (sanitize_contact c) = false →
      loadStep (chunk :: rest) cnt = loadStep rest cnt) ∧
    (∀ rest cnt, cnt < 100 →
      loadStep ("Bad;Line,no,proper,split\n".data :: rest) cnt = loadStep rest cnt) ∧
    load_contacts ("Bad;Line,no,proper,split\n".data) = [] := by
  have h1 : ∀ chunk rest cnt, cnt < 100 → parseLine (lineOf chunk) = none →
      loadStep (chunk :: rest) cnt = loadStep rest cnt := by
    intro chunk rest cnt hcnt hp
    show (if 100 ≤ cnt then []
      else
        match parseLine (lineOf chunk) with
        | none => loadStep rest cnt
        | some c =>
          let c' := sanitize_contact c
          if validContact c' then c' :: loadStep rest (cnt + 1) else loadStep rest cnt) =
      loadStep rest cnt
    rw [if_neg (by omega), hp]
  have h2 : ∀ chunk rest cnt c, cnt < 100 → parseLine (lineOf chunk) = some c →
      validContact (sanitize_contact c) = false →
      loadStep (chunk :: rest) cnt = loadStep rest cnt := by
    intro chunk rest cnt c hcnt hp hbad
    show (if 100 ≤ cnt then []
      else
        match parseLine (lineOf chunk) with
        | none => loadStep rest cnt
        | some c =>
          let c' := sanitize_contact c
          if validContact c' then c' :: loadStep rest (cnt + 1) else loadStep rest cnt) =
      loadStep rest cnt
    rw [if_neg (by omega), hp]
    show (if validContact (sanitize_contact c) then
        sanitize_contact c :: loadStep rest (cnt + 1) else loadStep rest cnt) =
      loadStep rest cnt
    rw [if_neg (by simp [hbad])]
  refine ⟨h1, h2, ?_, by decide⟩
  intro rest cnt hcnt
  exact h2 _ rest cnt ⟨"Bad;Line", "no", "proper,split"⟩ hcnt (by decide) (by decide)

/-- Witness for C6 at a concrete chunk list and count. -/
theorem csv_malformed_skip_witness :
    (0 : Nat) < 100 ∧
    loadStep ["Bad;Line,no,proper,split\n".data] 0 = loadStep [] 0 :=
  ⟨by decide, csv_malformed_skip.2.2.1 [] 0 (by decide)⟩


/-! ## vCard import (import_from_vcf) -/

/-- snprintf into a buffer of n+1 bytes keeps the first n characters. -/
def truncTo (n : Nat) (s : String) : String := ⟨s.data.take n⟩

/-- strchr(line, ':') and p+1: everything after the first colon, when a
colon is present. -/
def afterColon (line : List Char) : Option (List Char) :=
  match line.dropWhile (fun c => c != ':') with
  | ':' :: rest => some rest
  | _ => none

/-- strncmp(line, pre, length pre) == 0. -/
def hasPre : List Char → List Char → Bool
  | [], _ => true
  | _ :: _, [] => false
  | p :: ps, c :: cs => p == c && hasPre ps cs

/-- line[strcspn(line, "\\r\\n")] = 0: the chunk truncated at its first
carriage return or newline. -/
def lineV (chunk : List Char) : List Char :=
  chunk.takeWhile (fun c => c != '\r' && c != '\n')

/-- The per-line scanner of import_from_vcf: an FN: line sets the name
accumulator to everything after the prefix (truncated to the 50-byte
name buffer); a TEL... line sets the phone accumulator to everything
after the first colon (17-byte buffer), keeping it when the line has no
colon; an EMAIL... line does the same for the email accumulator
(254-byte buffer); an END:VCARD line sanitizes and validates the
accumulated triple, appends it when the store has room, and always
resets the three accumulators; every other line is ignored. -/
def importLoop : List (List Char) → String → String → String → List Contact → List Contact
  | [], _, _, _, store => store
  | chunk :: rest, nm, ph, em, store =>
    if hasPre "FN:".data (lineV chunk) then
      importLoop rest (truncTo 49 ⟨(lineV chunk).drop 3⟩) ph em store
    else if hasPre "TEL".data (lineV chunk) then
      match afterColon (lineV chunk) with
      | some r => importLoop rest nm (truncTo 16 ⟨r⟩) em store
      | none => importLoop rest nm ph em store
    else if hasPre "EMAIL".data (lineV chunk) then
      match afterColon (lineV chunk) with
      | some r => importLoop rest nm ph (truncTo 253 ⟨r⟩) store
      | none => importLoop rest nm ph em store
    else if hasPre "END:VCARD".data (lineV chunk) then
      importLoop rest "" "" ""
        (if store.length < 100 then
          if validContact (sanitize_contact ⟨nm, ph, em⟩) then
            store ++ [sanitize_contact ⟨nm, ph, em⟩]
          else store
        else store)
    else importLoop rest nm ph em store

/-- import_from_vcf: scan the file (512-byte line buffer) and append
the accepted cards to the current store. -/
def import_from_vcf (store : List Contact) (file : List Char) : List Contact :=
  importLoop (readLines 511 file) "" "" "" store

lemma hasPre_cons {p : Char} {ps cs : List Char} (h : hasPre (p :: ps) cs = true) :
    ∃ cs', cs = p :: cs' ∧ hasPre ps cs' = true := by
  cases cs with
  | nil => exact absurd h (by simp [hasPre])
  | cons c cs' =>
    unfold hasPre at h
    rw [Bool.and_eq_true] at h
    exact ⟨cs', by rw [beq_iff_eq.mp h.1], h.2⟩

/-- The scenario card of C8. -/
def vcfCard : String :=
  "BEGIN:VCARD\nVERSION:3.0\nFN:Alice Smith\nTEL:111\nTEL;TYPE=CELL:+14155552671\nEMAIL;TYPE=WORK:alice@x.com\nEND:VCARD\n"

/-- C8: during vCard decode a TEL line overwrites the phone accumulator
and an EMAIL line the email accumulator regardless of their previous
values, so only the last TEL and last EMAIL of a card survive to
END:VCARD; END:VCARD always resets the accumulators to empty; in
particular the card holding TEL:111 followed by
TEL;TYPE=CELL:+14155552671 stores only +14155552671 as the phone. -/
theorem vcf_last_tel_wins :
    (∀ chunk rest nm ph em store r, hasPre "TEL".data (lineV chunk) = true →
      afterColon (lineV chunk) = some r →
      importLoop (chunk :: rest) nm ph em store =
        importLoop rest nm (truncTo 16 ⟨r⟩) em store) ∧
    (∀ chunk rest nm ph em store r, hasPre "EMAIL".data (lineV chunk) = true →
      afterColon (lineV chunk) = some r →
      importLoop (chunk :: rest) nm ph em store =
        importLoop rest nm ph (truncTo 253 ⟨r⟩) store) ∧
    (∀ chunk rest nm ph em store, hasPre "END:VCARD".data (lineV chunk) = true →
      importLoop (chunk :: rest) nm ph em store =
        importLoop rest "" "" ""
          (if store.length < 100 then
            if validContact (sanitize_contact ⟨nm, ph, em⟩) then
              store ++ [sanitize_contact ⟨nm, ph, em⟩]
            else store
          else store)) ∧
    import_from_vcf [] vcfCard.data =
      [⟨"Alice Smith", "+14155552671", "alice@x.com"⟩] := by
  refine ⟨?_, ?_, ?_, by decide⟩
  · intro chunk rest nm ph em store r htel hcolon
    obtain ⟨l1, hl1, -⟩ := hasPre_cons htel
    have hFN : hasPre "FN:".data (lineV chunk) = false := by
      rw [hl1]; simp [hasPre]
    show (if hasPre "FN:".data (lineV chunk) = true then _ else _) = _
    rw [if_neg (by rw [hFN]; simp), if_pos htel, hcolon]
  · intro chunk rest nm ph em store r hem hcolon
    obtain ⟨l1, hl1, -⟩ := hasPre_cons hem
    have hFN : hasPre "FN:".data (lineV chunk) = false := by
      rw [hl1]; simp [hasPre]
    have hTEL : hasPre "TEL".data (lineV chunk) = false := by
      rw [hl1]; simp [hasPre]
    show (if hasPre "FN:".data (lineV chunk) = true then _ else _) = _
    rw [if_neg (by rw [hFN]; simp), if_neg (by rw [hTEL]; simp), if_pos hem, hcolon]
  · intro chunk rest nm ph em store hend
    obtain ⟨l1, hl1, hrest1⟩ := hasPre_cons hend
    obtain ⟨l2, hl2, -⟩ := hasPre_cons hrest1
    have hFN : hasPre "FN:".data (lineV chunk) = false := by
      rw [hl1]; simp [hasPre]
    have hTEL : hasPre "TEL".data (lineV chunk) = false := by
      rw [hl1]; simp [hasPre]
    have hEM : hasPre "EMAIL".data (lineV chunk) = false := by
      rw [hl1, hl2]; simp [hasPre]
    show (if hasPre "FN:".data (lineV chunk) = true then _ else _) = _
    rw [if_neg (by rw [hFN]; simp), if_neg (by rw [hTEL]; simp),
      if_neg (by rw [hEM]; simp), if_pos hend]

/-- Witness for C8: the accumulator-overwrite conjunct applied to the
concrete second TEL line. -/
theorem vcf_last_tel_wins_witness :
    hasPre "TEL".data (lineV "TEL;TYPE=CELL:+14155552671".data) = true ∧
    importLoop ["TEL;TYPE=CELL:+14155552671".data] "" "111" "" [] =
      importLoop [] "" (truncTo 16 ⟨"+14155552671".data⟩) "" [] :=
  ⟨by decide, vcf_last_tel_wins.1 "TEL;TYPE=CELL:+14155552671".data [] "" "111" "" []
    "+14155552671".data (by decide) (by decide)⟩

end ContactMgr
